import Mathlib

/-!
Verification development for the race-car telemetry pipeline in `main.py`.

The pipeline is: load a tab-separated (time, channel, value) log, pivot it
into a time-indexed wide table (one column per channel), optionally fill
gaps, rename columns to `Channel_<int(id)>`, derive `Channel_7` as
`Channel_5 - Channel_4`, and scan for the first times at which the
threshold conditions hold.

Numbers are modelled as rationals; pandas `NaN` cells are modelled as
`Option.none`.  The reading of the input file is modelled at two levels:
a string-level loader model (`readCsv` / `pivotRaw`, mirroring
`pd.read_csv` + `DataFrame.pivot` on raw text) and a record-level
pipeline (`pivot`, `applyFill`, `renameCols`, `derive`) mirroring the
same steps on already-numeric data.
-/

set_option allowUnsafeReducibility true in
attribute [semireducible] Rat.add Rat.sub Rat.mul Rat.inv Rat.div Rat.ofScientific

namespace MGP

/-- Python's `int()` applied to a rational: truncation toward zero. -/
def pyInt (q : ℚ) : Int := if 0 ≤ q then ⌊q⌋ else ⌈q⌉

/-- One row of the long-format input: `{time, channel, value}`.
A `value` of `none` models an empty / NaN value field. -/
structure RawRecord where
  time : ℚ
  channel : ℚ
  value : Option ℚ
deriving DecidableEq

/-- A wide table: a time index together with named columns, one
`Option ℚ` entry per time (`none` = NaN).  The column-name type `α` is
`ℚ` right after the pivot and `String` after renaming. -/
structure Table (α : Type) where
  times : List ℚ
  cols : List (α × List (Option ℚ))
deriving DecidableEq

/-- Well-formedness: every column has one entry per time. -/
def Table.WF {α : Type} (t : Table α) : Prop :=
  ∀ p ∈ t.cols, p.2.length = t.times.length

instance {α : Type} (t : Table α) : Decidable t.WF :=
  inferInstanceAs (Decidable (∀ p ∈ t.cols, p.2.length = t.times.length))

/-- First column with the given name (a `df[name]` lookup). -/
def lookupCol {α β : Type} [DecidableEq α] : List (α × β) → α → Option β
  | [], _ => none
  | p :: l, c => if p.1 = c then some p.2 else lookupCol l c

def Table.colOf {α : Type} [DecidableEq α] (t : Table α) (c : α) : Option (List (Option ℚ)) :=
  lookupCol t.cols c

def Table.colNames {α : Type} (t : Table α) : List α :=
  t.cols.map Prod.fst

/-- Index of the first occurrence of `τ` in the time index. -/
def idxOf? (τ : ℚ) : List ℚ → Option Nat
  | [] => none
  | x :: xs => if x = τ then some 0 else (idxOf? τ xs).map (· + 1)

/-- The table's entry for column `c` at time `τ`: `some q` for a present
value, `none` when the cell is NaN or the column / time is absent. -/
def Table.valAt {α : Type} [DecidableEq α] (t : Table α) (c : α) (τ : ℚ) : Option ℚ :=
  match t.colOf c, idxOf? τ t.times with
  | some vs, some i => (vs[i]?).join
  | _, _ => none

/-- Insert into a `le`-sorted list (used to model the sorted index that
`DataFrame.pivot` produces). -/
def insortBy {α : Type} (le : α → α → Bool) (x : α) : List α → List α
  | [] => [x]
  | y :: ys => if le x y then x :: y :: ys else y :: insortBy le x ys

/-- Sorted list of the distinct elements of `l` (the pivot's index /
column domain: `sorted(set(l))`). -/
def sortedDedupBy {α : Type} [DecidableEq α] (le : α → α → Bool) (l : List α) : List α :=
  l.foldr (fun x acc => if x ∈ acc then acc else insortBy le x acc) []

def leQ (a b : ℚ) : Bool := decide (a ≤ b)

def sortedDedupQ (l : List ℚ) : List ℚ := sortedDedupBy leQ l

/-- The pivoted cell for (time `τ`, channel `c`): the value of the unique
matching record (pandas keeps exactly one, having rejected duplicates). -/
def cellOf (rs : List RawRecord) (τ c : ℚ) : Option ℚ :=
  (rs.find? fun r => decide (r.time = τ) && decide (r.channel = c)).bind RawRecord.value

/-- `df.pivot(index='time', columns='channel', values='value')`:
fails (as pandas does, with "Index contains duplicate entries") when some
(time, channel) pair occurs twice; otherwise builds the wide table with
sorted time index and sorted channel columns. -/
def pivot (rs : List RawRecord) : Except String (Table ℚ) :=
  if (rs.map fun r => (r.time, r.channel)).Nodup then
    Except.ok
      { times := sortedDedupQ (rs.map RawRecord.time)
        cols := (sortedDedupQ (rs.map RawRecord.channel)).map fun c =>
          (c, (sortedDedupQ (rs.map RawRecord.time)).map fun τ => cellOf rs τ c) }
  else Except.error "Index contains duplicate entries, cannot reshape"

/-- `Series.ffill`: each NaN takes the nearest earlier known value
(the accumulator carries the last known value seen so far). -/
def ffillGo (last : Option ℚ) : List (Option ℚ) → List (Option ℚ)
  | [] => []
  | some x :: xs => some x :: ffillGo (some x) xs
  | none :: xs => last :: ffillGo last xs

def ffillList (vs : List (Option ℚ)) : List (Option ℚ) := ffillGo none vs

/-- `Series.bfill`: the mirror image of `ffill`. -/
def bfillList (vs : List (Option ℚ)) : List (Option ℚ) :=
  (ffillList vs.reverse).reverse

/-- Nearest known value at a position strictly before `i` (with its
position), if any. -/
def prevKnown (vs : List (Option ℚ)) (i : Nat) : Option (Nat × ℚ) :=
  ((List.range i).filterMap fun j => ((vs[j]?).join).map fun v => (j, v)).getLast?

/-- Nearest known value at a position strictly after `i` (with its
position), if any. -/
def nextKnown (vs : List (Option ℚ)) (i : Nat) : Option (Nat × ℚ) :=
  ((List.range' (i + 1) (vs.length - (i + 1))).filterMap fun j =>
    ((vs[j]?).join).map fun v => (j, v)).head?

/-- The value `Series.interpolate(method='linear')` leaves at position `i`:
known values stay; a NaN between two known values becomes the linear
interpolation over *positions* (pandas' `'linear'` ignores the index and
treats values as equally spaced); a NaN after the last known value takes
that last known value (default `limit_direction='forward'`); a NaN before
the first known value stays NaN. -/
def interpAt (vs : List (Option ℚ)) (i : Nat) : Option ℚ :=
  match (vs[i]?).join with
  | some x => some x
  | none =>
    match prevKnown vs i, nextKnown vs i with
    | some (j0, v0), some (j1, v1) =>
        some (v0 + ((i : ℚ) - (j0 : ℚ)) * (v1 - v0) / ((j1 : ℚ) - (j0 : ℚ)))
    | some (_, v0), none => some v0
    | none, _ => none

def interpolateList (vs : List (Option ℚ)) : List (Option ℚ) :=
  (List.range vs.length).map (interpAt vs)

/-- Apply a per-column transformation to every column. -/
def Table.mapCols {α : Type} (f : List (Option ℚ) → List (Option ℚ)) (t : Table α) : Table α :=
  { times := t.times, cols := t.cols.map fun p => (p.1, f p.2) }

/-- The `if fill_missing: ...` block of `load_and_process_data`: dispatch
on the `fill_method` string exactly as the source does (an unrecognized
method string is silently a no-op there). -/
def applyFill {α : Type} (fill_missing : Bool) (fill_method : String) (t : Table α) : Table α :=
  if fill_missing then
    if fill_method = "interpolate" then t.mapCols interpolateList
    else if fill_method = "ffill" then t.mapCols ffillList
    else if fill_method = "bfill" then t.mapCols bfillList
    else t
  else t

def digitChar (n : Nat) : Char := Char.ofNat (48 + n)

/-- Decimal digits, most significant first; the first argument is
recursion fuel (any fuel above the argument gives the digits). -/
def natDigitsAux : Nat → Nat → List Char
  | 0, _ => []
  | fuel + 1, n =>
    if n < 10 then [digitChar n] else natDigitsAux fuel (n / 10) ++ [digitChar (n % 10)]

/-- Decimal digits of a natural number, most significant first
(a model of Python's / Lean's decimal formatting). -/
def natDigits (n : Nat) : List Char := natDigitsAux (n + 1) n

/-- Decimal representation of an integer, as produced by `str`/f-strings. -/
def intRepr (i : Int) : String :=
  match i with
  | Int.ofNat m => ⟨natDigits m⟩
  | Int.negSucc m => ⟨'-' :: natDigits (m + 1)⟩

/-- `f'Channel_{int(col)}'`. -/
def chanName (c : ℚ) : String := "Channel_" ++ intRepr (pyInt c)

/-- `df_pivot.columns = [f'Channel_{int(col)}' for col in df_pivot.columns]`. -/
def renameCols (t : Table ℚ) : Table String :=
  { times := t.times, cols := t.cols.map fun p => (chanName p.1, p.2) }

/-- Subtraction with pandas NaN propagation: NaN wherever either
operand is NaN. -/
def subOpt (a b : Option ℚ) : Option ℚ :=
  match a, b with
  | some x, some y => some (x - y)
  | _, _ => none

/-- Pointwise `Channel_5 - Channel_4`. -/
def zipSub (v5 v4 : List (Option ℚ)) : List (Option ℚ) :=
  List.zipWith subOpt v5 v4

/-- `df['Channel_7'] = s`: replace the column in place if it exists,
otherwise append it as the last column. -/
def setColList {α : Type} [DecidableEq α] (l : List (α × List (Option ℚ))) (c : α)
    (vs : List (Option ℚ)) : List (α × List (Option ℚ)) :=
  if l.any fun p => decide (p.1 = c) then
    l.map fun p => if p.1 = c then (c, vs) else p
  else l ++ [(c, vs)]

def Table.setCol {α : Type} [DecidableEq α] (t : Table α) (c : α)
    (vs : List (Option ℚ)) : Table α :=
  { times := t.times, cols := setColList t.cols c vs }

/-- `df_pivot['Channel_7'] = df_pivot['Channel_5'] - df_pivot['Channel_4']`:
a `KeyError` (here `Except.error`) if either source column is absent,
`Channel_5` being looked up first. -/
def derive (t : Table String) : Except String (Table String) :=
  match t.colOf "Channel_5" with
  | none => Except.error "KeyError: Channel_5"
  | some v5 =>
    match t.colOf "Channel_4" with
    | none => Except.error "KeyError: Channel_4"
    | some v4 => Except.ok (t.setCol "Channel_7" (zipSub v5 v4))

/-- `load_and_process_data` with the file read abstracted into the record
list: pivot, optional fill, rename, derive. -/
def load_and_process_data (rs : List RawRecord) (fill_missing : Bool)
    (fill_method : String) : Except String (Table String) :=
  (pivot rs).bind fun t => derive (renameCols (applyFill fill_missing fill_method t))

/-- One pandas cell compared against a threshold: NaN compares `False`. -/
def ltNaN (θ : ℚ) (o : Option ℚ) : Bool :=
  match o with
  | some x => decide (x < θ)
  | none => false

/-- `series < θ` in pandas: NaN compares `False`. -/
def seriesLt (vs : List (Option ℚ)) (θ : ℚ) : List Bool :=
  vs.map (ltNaN θ)

/-- `df[mask].index`: the times selected by a boolean mask. -/
def selectTimes (times : List ℚ) (mask : List Bool) : List ℚ :=
  (times.zip mask).filterMap fun p => if p.2 then some p.1 else none

/-- `Index.min()`: `none` models the NaN an empty float index yields. -/
def listMin? : List ℚ → Option ℚ
  | [] => none
  | x :: xs =>
    match listMin? xs with
    | none => some x
    | some m => some (min x m)

/-- `find_first_conditions(df)`: the first (minimum) times at which
`Channel_2 < -0.5`, `Channel_7 < 0`, and their conjunction hold, `none`
standing for the NaN sentinel; a missing column is a `KeyError`,
`Channel_2` being touched first. -/
def find_first_conditions (df : Table String) :
    Except String (Option ℚ × Option ℚ × Option ℚ) :=
  match df.colOf "Channel_2" with
  | none => Except.error "KeyError: Channel_2"
  | some v2 =>
    match df.colOf "Channel_7" with
    | none => Except.error "KeyError: Channel_7"
    | some v7 =>
      Except.ok
        (listMin? (selectTimes df.times (seriesLt v2 (-0.5))),
         listMin? (selectTimes df.times (seriesLt v7 0)),
         listMin? (selectTimes df.times (List.zipWith (· && ·) (seriesLt v2 (-0.5)) (seriesLt v7 0))))

/-- The command-line surface: `-i` (input), `-f` (fill) and
`-m` (method) as parsed by argparse. -/
structure Args where
  input : Option String
  fill : Bool
  method : Option String
deriving DecidableEq

/-- The argument-handling prologue of `__main__`: `fill_missing` comes
only from `-f`; `if args.method:` is Python truthiness, so a `None` or
empty method is skipped; a non-empty method outside
{interpolate, ffill, bfill} raises `ValueError` before any data is read. -/
def resolveArgs (args : Args) : Except String (Bool × String) :=
  match args.method with
  | none => Except.ok (args.fill, "interpolate")
  | some m =>
    if m = "" then Except.ok (args.fill, "interpolate")
    else if m = "interpolate" ∨ m = "ffill" ∨ m = "bfill" then Except.ok (args.fill, m)
    else Except.error "Invalid fill method. Please choose from interpolate, ffill, bfill."

/-- The `__main__` flow up to the condition report: resolve arguments,
then load/process the data, then evaluate the conditions. -/
def mainRun (rs : List RawRecord) (args : Args) :
    Except String (Table String × (Option ℚ × Option ℚ × Option ℚ)) :=
  (resolveArgs args).bind fun p =>
    (load_and_process_data rs p.1 p.2).bind fun df =>
      (find_first_conditions df).map fun conds => (df, conds)

/-!  String-level loader model (`pd.read_csv(file_path, sep='\t')` followed
by `df.pivot(...)` on raw text).  `read_csv` types whole columns: a column
all of whose non-empty fields parse as numbers becomes numeric, otherwise
its fields stay strings; empty fields are NaN either way. -/

/-- One cell of a freshly read frame: a parsed number, an unparsed
string, or NaN. -/
inductive Cell : Type where
  | num (q : ℚ)
  | str (s : String)
  | na
deriving DecidableEq

/-- Decimal digit list to the natural number it denotes. -/
def digitsVal (ds : List Char) : Nat :=
  ds.foldl (fun a c => 10 * a + (c.toNat - 48)) 0

/-- Unsigned decimal numeral, with an optional decimal point. -/
def parseUnsigned (cs : List Char) : Option ℚ :=
  match cs.splitOn '.' with
  | [a] => if a ≠ [] ∧ a.all Char.isDigit then some (digitsVal a : ℚ) else none
  | [a, b] =>
    if (a ++ b) ≠ [] ∧ (a ++ b).all Char.isDigit then
      some ((digitsVal (a ++ b) : ℚ) / (10 ^ b.length : ℚ))
    else none
  | _ => none

/-- A model of the numeric parsing `read_csv` applies to a field
(optional sign, digits, optional decimal point; scientific notation and
the inf/nan spellings are not modelled). -/
def parseNum (s : String) : Option ℚ :=
  match s.data with
  | '-' :: t => (parseUnsigned t).map Neg.neg
  | '+' :: t => parseUnsigned t
  | t => parseUnsigned t

/-- Column typing: numeric when every non-empty field parses, else the
fields are kept as strings. -/
def parseColumn (raw : List String) : List Cell :=
  if raw.all fun s => s = "" || (parseNum s).isSome then
    raw.map fun s =>
      if s = "" then Cell.na
      else
        match parseNum s with
        | some q => Cell.num q
        | none => Cell.str s
  else raw.map fun s => if s = "" then Cell.na else Cell.str s

/-- The raw frame, column by column; column `j` holds field `j` of every
row (a short row contributes an empty field). -/
def readCsvAux (j : Nat) : List String → List (List String) → List (String × List Cell)
  | [], _ => []
  | h :: hs, rows =>
    (h, parseColumn (rows.map fun row => row.getD j "")) :: readCsvAux (j + 1) hs rows

/-- The raw text input: a header row and data rows, already split at
tabs. -/
structure RawInput where
  header : List String
  rows : List (List String)
deriving DecidableEq

def readCsv (inp : RawInput) : List (String × List Cell) :=
  readCsvAux 0 inp.header inp.rows

/-- The wide table built from raw cells: a time index of cells and one
column of cells per channel cell. -/
structure RawTable where
  times : List Cell
  cols : List (Cell × List Cell)
deriving DecidableEq

/-- A total order used for the sorted pivot index; it only matters on
homogeneous columns (pandas raises on mixed-type sorts, which the model
totalizes instead). -/
def cellLE (x y : Cell) : Bool :=
  match x, y with
  | Cell.num a, Cell.num b => decide (a ≤ b)
  | Cell.num _, _ => true
  | Cell.str _, Cell.num _ => false
  | Cell.str a, Cell.str b => decide (¬ compare a b = Ordering.gt)
  | Cell.str _, Cell.na => true
  | Cell.na, Cell.na => true
  | Cell.na, _ => false

/-- `df.pivot(index='time', columns='channel', values='value')` on the
raw frame: a `KeyError` if a required column is absent, the duplicate
check on raw (time, channel) cell pairs, otherwise the wide cell table. -/
def pivotRaw (df : List (String × List Cell)) : Except String RawTable :=
  match lookupCol df "time", lookupCol df "channel", lookupCol df "value" with
  | some ts, some chs, some vls =>
    let triples := ts.zip (chs.zip vls)
    if (triples.map fun p => (p.1, p.2.1)).Nodup then
      Except.ok
        { times := sortedDedupBy cellLE ts
          cols := (sortedDedupBy cellLE chs).map fun c =>
            (c, (sortedDedupBy cellLE ts).map fun τ =>
              match triples.find? fun p => decide (p.1 = τ) && decide (p.2.1 = c) with
              | some p => p.2.2
              | none => Cell.na) }
    else Except.error "Index contains duplicate entries, cannot reshape"
  | _, _, _ => Except.error "KeyError: pivot column absent"

/-- The Loader followed by the Reshaper on raw text. -/
def loadModel (inp : RawInput) : Except String RawTable :=
  pivotRaw (readCsv inp)

/-!  Spec-side definitions, used to state the claims (not part of the
code model). -/

/-- The value referenced by a predicate is present at `τ` and below the
threshold `θ` — the membership test of the condition evaluator's spec. -/
def presentLt (t : Table String) (c : String) (θ τ : ℚ) : Prop :=
  ∃ q, t.valAt c τ = some q ∧ q < θ

/-- `r` is the first-time answer the spec demands for predicate `P`:
`none` exactly when no time of the table satisfies `P`, and any `some`
is a satisfying time no later than every satisfying time. -/
def isFirstSat (t : Table String) (P : ℚ → Prop) (r : Option ℚ) : Prop :=
  (r = none ↔ ¬ ∃ τ ∈ t.times, P τ) ∧
  ∀ m, r = some m → m ∈ t.times ∧ P m ∧ ∀ τ ∈ t.times, P τ → m ≤ τ

/-- Modelled from the spec: linear interpolation *by time* between the
known neighbours `(t0, v0)` and `(t1, v1)` — the fill value §4.2 of the
spec prescribes at time `τ`. -/
def specTimeInterp (t0 v0 t1 v1 τ : ℚ) : ℚ :=
  v0 + (τ - t0) * (v1 - v0) / (t1 - t0)

/-!  Concrete inputs used by witnesses and counterexamples. -/

/-- The end-to-end example of spec §8. -/
def exRecords : List RawRecord :=
  [⟨0, 2, some (-0.2)⟩, ⟨0, 4, some 1⟩, ⟨0, 5, some 0.5⟩,
   ⟨1, 2, some (-0.6)⟩, ⟨1, 4, some 1⟩, ⟨1, 5, some 0.2⟩]

/-- Two records for the same (time, channel) pair. -/
def dupRecords : List RawRecord := [⟨0, 1, some 1⟩, ⟨0, 1, some 2⟩]

/-- One channel observed at times 0, 10 with a gap at 1 and a trailing
gap at 20 — times deliberately not equally spaced. -/
def gapRecords : List RawRecord :=
  [⟨0, 2, some 0⟩, ⟨1, 2, none⟩, ⟨10, 2, some 10⟩, ⟨20, 2, none⟩]

/-- Channels 4 and 5 everywhere, channel 2 missing at time 0. -/
def holeRecords : List RawRecord :=
  [⟨0, 4, some 1⟩, ⟨0, 5, some 2⟩, ⟨1, 4, some 1⟩, ⟨1, 5, some 2⟩, ⟨1, 2, some 5⟩]

/-- A raw input whose `time` fields are partly non-numeric. -/
def badTimeInput : RawInput :=
  { header := ["time", "channel", "value"]
    rows := [["abc", "4", "1"], ["abc", "5", "2.5"], ["3", "4", "7"]] }

/-- A raw input whose header misspells `time`. -/
def badHeaderInput : RawInput :=
  { header := ["tim", "channel", "value"]
    rows := [["0", "4", "1"]] }

/-- A two-column table exercising both the present-present and the
missing-value cases of the derivation. -/
def twoColTable : Table String :=
  { times := [0, 1]
    cols := [("Channel_4", [some 1, none]), ("Channel_5", [some 0.5, some 3])] }

/-- A table with `Channel_5` but no `Channel_4`. -/
def noCh4Table : Table String :=
  { times := [0], cols := [("Channel_5", [some 1])] }

/-- A post-pivot table that already carries a `Channel_7` column
(channel identifier 7 was present in the input). -/
def withCh7Records : List RawRecord :=
  [⟨0, 4, some 1⟩, ⟨0, 5, some 3⟩, ⟨0, 7, some 99⟩,
   ⟨1, 4, some 2⟩, ⟨1, 5, some 3⟩, ⟨1, 7, some 88⟩]

/-- A table for exercising the condition evaluator: `Channel_2` dips
below -0.5 from time 2 on, `Channel_7` is negative at times 1 and 3,
with missing entries sprinkled in. -/
def condTable : Table String :=
  { times := [0, 1, 2, 3]
    cols := [("Channel_2", [some 0, none, some (-0.7), some (-0.9)]),
             ("Channel_7", [some 1, some (-1), none, some (-2)])] }

/-- A one-column table with a gap at position 1 (between knowns) and a
trailing gap at position 3. -/
def interpTable : Table ℚ :=
  { times := [0, 1, 10, 20], cols := [(2, [some 0, none, some 10, none])] }

/-!  ## Infrastructure lemmas -/

theorem lookupCol_eq_none_iff {α β : Type} [DecidableEq α] {l : List (α × β)} {c : α} :
    lookupCol l c = none ↔ c ∉ l.map Prod.fst := by
  induction l with
  | nil => simp [lookupCol]
  | cons p l ih =>
    by_cases h : p.1 = c
    · simp [lookupCol, h]
    · simp [lookupCol, h, ih, Ne.symm h]

theorem lookupCol_isSome_iff {α β : Type} [DecidableEq α] {l : List (α × β)} {c : α} :
    (lookupCol l c).isSome ↔ c ∈ l.map Prod.fst := by
  rw [Option.isSome_iff_ne_none]
  constructor
  · intro h
    by_contra hc
    exact h (lookupCol_eq_none_iff.mpr hc)
  · intro h hnone
    exact lookupCol_eq_none_iff.mp hnone h

theorem lookupCol_append {α β : Type} [DecidableEq α] (l1 l2 : List (α × β)) (c : α) :
    lookupCol (l1 ++ l2) c =
      match lookupCol l1 c with
      | some v => some v
      | none => lookupCol l2 c := by
  induction l1 with
  | nil => simp [lookupCol]
  | cons p l ih =>
    by_cases h : p.1 = c
    · simp [lookupCol, h]
    · simp [lookupCol, h, ih]

theorem lookupCol_mapSnd {α β γ : Type} [DecidableEq α] (f : β → γ) (l : List (α × β)) (c : α) :
    lookupCol (l.map fun p => (p.1, f p.2)) c = (lookupCol l c).map f := by
  induction l with
  | nil => simp [lookupCol]
  | cons p l ih =>
    by_cases h : p.1 = c
    · simp [lookupCol, h]
    · simp [lookupCol, h, ih]

theorem lookupCol_overwrite {α : Type} [DecidableEq α] :
    ∀ (l : List (α × List (Option ℚ))) (c : α) (vs : List (Option ℚ)),
      c ∈ l.map Prod.fst →
      lookupCol (l.map fun p => if p.1 = c then (c, vs) else p) c = some vs := by
  intro l
  induction l with
  | nil => intro c vs h; simp at h
  | cons p l ih =>
    intro c vs h
    by_cases hp : p.1 = c
    · simp [lookupCol, hp]
    · have h' : c ∈ l.map Prod.fst := by
        rcases List.mem_map.mp h with ⟨q, hq, hqc⟩
        rcases List.mem_cons.mp hq with rfl | hq'
        · exact absurd hqc hp
        · exact List.mem_map.mpr ⟨q, hq', hqc⟩
      simpa [lookupCol, hp] using ih c vs h'

theorem lookupCol_setColList_self {α : Type} [DecidableEq α]
    (l : List (α × List (Option ℚ))) (c : α) (vs : List (Option ℚ)) :
    lookupCol (setColList l c vs) c = some vs := by
  unfold setColList
  by_cases hmem : c ∈ l.map Prod.fst
  · have hany : (l.any fun p => decide (p.1 = c)) = true := by
      simp only [List.any_eq_true, decide_eq_true_eq]
      rcases List.mem_map.mp hmem with ⟨p, hp, hpc⟩
      exact ⟨p, hp, hpc⟩
    simp only [hany, if_true]
    exact lookupCol_overwrite l c vs hmem
  · have hany : (l.any fun p => decide (p.1 = c)) = false := by
      simp only [List.any_eq_false, decide_eq_true_eq]
      intro p hp hpc
      exact hmem (List.mem_map.mpr ⟨p, hp, hpc⟩)
    simp only [hany, Bool.false_eq_true, if_false]
    rw [lookupCol_append]
    rw [lookupCol_eq_none_iff.mpr hmem]
    simp [lookupCol]

theorem lookupCol_overwrite_ne {α : Type} [DecidableEq α]
    (l : List (α × List (Option ℚ))) (c c' : α) (vs : List (Option ℚ)) (h : c' ≠ c) :
    lookupCol (l.map fun p => if p.1 = c then (c, vs) else p) c' = lookupCol l c' := by
  induction l with
  | nil => simp [lookupCol]
  | cons p l ih =>
    by_cases hp : p.1 = c
    · simp [lookupCol, hp, Ne.symm h, ih]
    · simp [lookupCol, hp, ih]

theorem lookupCol_setColList_ne {α : Type} [DecidableEq α]
    (l : List (α × List (Option ℚ))) (c c' : α) (vs : List (Option ℚ)) (h : c' ≠ c) :
    lookupCol (setColList l c vs) c' = lookupCol l c' := by
  unfold setColList
  by_cases hany : (l.any fun p => decide (p.1 = c)) = true
  · simp only [hany, if_true]
    exact lookupCol_overwrite_ne l c c' vs h
  · simp only [Bool.not_eq_true] at hany
    simp only [hany, Bool.false_eq_true, if_false]
    rw [lookupCol_append]
    cases hl : lookupCol l c' with
    | some v => simp
    | none => simp [lookupCol, Ne.symm h]

theorem setColList_map_fst {α : Type} [DecidableEq α]
    (l : List (α × List (Option ℚ))) (c : α) (vs : List (Option ℚ))
    (h : c ∈ l.map Prod.fst) :
    (setColList l c vs).map Prod.fst = l.map Prod.fst := by
  have hany : (l.any fun p => decide (p.1 = c)) = true := by
    simp only [List.any_eq_true, decide_eq_true_eq]
    rcases List.mem_map.mp h with ⟨p, hp, hpc⟩
    exact ⟨p, hp, hpc⟩
  unfold setColList
  simp only [hany, if_true, List.map_map]
  apply List.map_congr_left
  intro p _
  by_cases hpc : p.1 = c
  · simp [Function.comp, hpc]
  · simp [Function.comp, hpc]

theorem idxOf?_getElem {τ : ℚ} : ∀ {l : List ℚ} {i : Nat}, idxOf? τ l = some i → l[i]? = some τ := by
  intro l
  induction l with
  | nil => intro i h; simp [idxOf?] at h
  | cons x xs ih =>
    intro i h
    by_cases hx : x = τ
    · simp only [idxOf?, hx, if_true, Option.some.injEq] at h
      subst h; simp [hx]
    · simp only [idxOf?, hx, if_false, Option.map_eq_some'] at h
      rcases h with ⟨j, hj, rfl⟩
      simpa using ih hj

theorem idxOf?_lt_length {τ : ℚ} {l : List ℚ} {i : Nat} (h : idxOf? τ l = some i) :
    i < l.length := by
  have := idxOf?_getElem h
  exact (List.getElem?_eq_some.mp this).1

theorem idxOf?_eq_none_iff {τ : ℚ} {l : List ℚ} : idxOf? τ l = none ↔ τ ∉ l := by
  induction l with
  | nil => simp [idxOf?]
  | cons x xs ih =>
    by_cases hx : x = τ
    · simp [idxOf?, hx]
    · simp [idxOf?, hx, ih, Ne.symm hx]

theorem mem_of_getElem?_some {α : Type} {l : List α} {i : Nat} {a : α}
    (h : l[i]? = some a) : a ∈ l := by
  rcases List.getElem?_eq_some.mp h with ⟨hlt, hget⟩
  exact hget ▸ List.getElem_mem hlt

theorem idxOf?_of_getElem {τ : ℚ} : ∀ {l : List ℚ}, l.Nodup → ∀ {i : Nat},
    l[i]? = some τ → idxOf? τ l = some i := by
  intro l
  induction l with
  | nil => intro _ i h; simp at h
  | cons x xs ih =>
    intro hnd i h
    rcases List.nodup_cons.mp hnd with ⟨hx, hxs⟩
    match i with
    | 0 =>
      simp only [List.getElem?_cons_zero, Option.some.injEq] at h
      simp [idxOf?, h]
    | j + 1 =>
      simp only [List.getElem?_cons_succ] at h
      have hτ : τ ∈ xs := mem_of_getElem?_some h
      have hxτ : ¬ x = τ := fun hxe => hx (hxe ▸ hτ)
      simp [idxOf?, hxτ, ih hxs h]

theorem listMin?_eq_none_iff {l : List ℚ} : listMin? l = none ↔ l = [] := by
  cases l with
  | nil => simp [listMin?]
  | cons x xs =>
    simp only [listMin?]
    cases listMin? xs <;> simp

theorem listMin?_mem : ∀ {l : List ℚ} {m : ℚ}, listMin? l = some m → m ∈ l := by
  intro l
  induction l with
  | nil => intro m h; simp [listMin?] at h
  | cons x xs ih =>
    intro m h
    simp only [listMin?] at h
    cases hxs : listMin? xs with
    | none =>
      rw [hxs] at h
      simp only [Option.some.injEq] at h
      simp [← h]
    | some m' =>
      rw [hxs] at h
      simp only [Option.some.injEq] at h
      rcases min_cases x m' with ⟨heq, _⟩ | ⟨heq, _⟩
      · simp [← h, heq]
      · right; rw [← h, heq]; exact ih hxs

theorem listMin?_le : ∀ {l : List ℚ} {m : ℚ}, listMin? l = some m → ∀ x ∈ l, m ≤ x := by
  intro l
  induction l with
  | nil => intro m h; simp [listMin?] at h
  | cons x xs ih =>
    intro m h y hy
    simp only [listMin?] at h
    cases hxs : listMin? xs with
    | none =>
      rw [hxs] at h
      simp only [Option.some.injEq] at h
      rcases List.mem_cons.mp hy with heq | hy'
      · rw [heq, ← h]
      · exact absurd (listMin?_eq_none_iff.mp hxs ▸ hy') (List.not_mem_nil y)
    | some m' =>
      rw [hxs] at h
      simp only [Option.some.injEq] at h
      rcases List.mem_cons.mp hy with heq | hy'
      · rw [heq, ← h]; exact min_le_left x m'
      · rw [← h]; exact le_trans (min_le_right x m') (ih hxs y hy')

theorem listMin?_spec {l : List ℚ} {m : ℚ} :
    listMin? l = some m ↔ m ∈ l ∧ ∀ x ∈ l, m ≤ x := by
  constructor
  · intro h
    exact ⟨listMin?_mem h, listMin?_le h⟩
  · rintro ⟨hm, hle⟩
    cases hl : listMin? l with
    | none =>
      rw [listMin?_eq_none_iff] at hl
      subst hl
      exact absurd hm (List.not_mem_nil m)
    | some m' =>
      have h1 : m' ≤ m := listMin?_le hl m hm
      have h2 : m ≤ m' := hle m' (listMin?_mem hl)
      rw [le_antisymm h1 h2]

theorem selectTimes_cons_true {t : ℚ} {ts : List ℚ} {bs : List Bool} :
    selectTimes (t :: ts) (true :: bs) = t :: selectTimes ts bs := by
  simp [selectTimes]

theorem selectTimes_cons_false {t : ℚ} {ts : List ℚ} {bs : List Bool} :
    selectTimes (t :: ts) (false :: bs) = selectTimes ts bs := by
  simp [selectTimes]

theorem mem_selectTimes {τ : ℚ} :
    ∀ {times : List ℚ} {mask : List Bool},
      τ ∈ selectTimes times mask ↔ ∃ i : Nat, times[i]? = some τ ∧ mask[i]? = some true := by
  intro times
  induction times with
  | nil => intro mask; simp [selectTimes]
  | cons t ts ih =>
    intro mask
    cases mask with
    | nil => simp [selectTimes]
    | cons b bs =>
      constructor
      · intro h
        cases b with
        | false =>
          rw [selectTimes_cons_false] at h
          rcases (@ih bs).mp h with ⟨i, h1, h2⟩
          exact ⟨i + 1, by simpa using h1, by simpa using h2⟩
        | true =>
          rw [selectTimes_cons_true] at h
          rcases List.mem_cons.mp h with heq | h'
          · exact ⟨0, by simp [heq], by simp⟩
          · rcases (@ih bs).mp h' with ⟨i, h1, h2⟩
            exact ⟨i + 1, by simpa using h1, by simpa using h2⟩
      · rintro ⟨i, h1, h2⟩
        match i with
        | 0 =>
          simp only [List.getElem?_cons_zero, Option.some.injEq] at h1 h2
          rw [h2, selectTimes_cons_true, ← h1]
          exact List.mem_cons_self t _
        | j + 1 =>
          simp only [List.getElem?_cons_succ] at h1 h2
          have hmem : τ ∈ selectTimes ts bs := (@ih bs).mpr ⟨j, h1, h2⟩
          cases b with
          | false => rw [selectTimes_cons_false]; exact hmem
          | true => rw [selectTimes_cons_true]; exact List.mem_cons_of_mem t hmem

theorem mem_insortBy {α : Type} (le : α → α → Bool) (x a : α) :
    ∀ (l : List α), a ∈ insortBy le x l ↔ a = x ∨ a ∈ l := by
  intro l
  induction l with
  | nil => simp [insortBy]
  | cons y ys ih =>
    by_cases h : le x y
    · simp [insortBy, h]
    · simp only [insortBy, h, Bool.false_eq_true, if_false, List.mem_cons, ih]
      tauto

theorem nodup_insortBy {α : Type} (le : α → α → Bool) (x : α) :
    ∀ (l : List α), x ∉ l → l.Nodup → (insortBy le x l).Nodup := by
  intro l
  induction l with
  | nil => intro _ _; simp [insortBy]
  | cons y ys ih =>
    intro hx hnd
    rcases List.nodup_cons.mp hnd with ⟨hy, hys⟩
    by_cases h : le x y
    · simp only [insortBy, h, if_true]
      exact List.nodup_cons.mpr ⟨hx, hnd⟩
    · simp only [insortBy, h, Bool.false_eq_true, if_false]
      refine List.nodup_cons.mpr ⟨?_, ih (fun hm => hx (List.mem_cons_of_mem y hm)) hys⟩
      rw [mem_insortBy]
      rintro (heq | hmem)
      · exact hx (heq ▸ List.mem_cons_self y ys)
      · exact hy hmem

theorem sortedDedupBy_cons {α : Type} [DecidableEq α] (le : α → α → Bool) (x : α)
    (xs : List α) :
    sortedDedupBy le (x :: xs) =
      if x ∈ sortedDedupBy le xs then sortedDedupBy le xs
      else insortBy le x (sortedDedupBy le xs) := rfl

theorem mem_sortedDedupBy {α : Type} [DecidableEq α] (le : α → α → Bool) :
    ∀ (l : List α) (a : α), a ∈ sortedDedupBy le l ↔ a ∈ l := by
  intro l
  induction l with
  | nil => intro a; simp [sortedDedupBy]
  | cons x xs ih =>
    intro a
    rw [sortedDedupBy_cons]
    by_cases h : x ∈ sortedDedupBy le xs
    · rw [if_pos h, ih a]
      have hx' : x ∈ xs := (ih x).mp h
      constructor
      · intro ha
        exact List.mem_cons_of_mem x ha
      · intro ha
        rcases List.mem_cons.mp ha with heq | ha'
        · rw [heq]; exact hx'
        · exact ha'
    · rw [if_neg h, mem_insortBy, ih a, List.mem_cons]

theorem nodup_sortedDedupBy {α : Type} [DecidableEq α] (le : α → α → Bool) :
    ∀ (l : List α), (sortedDedupBy le l).Nodup := by
  intro l
  induction l with
  | nil => simp [sortedDedupBy]
  | cons x xs ih =>
    rw [sortedDedupBy_cons]
    by_cases h : x ∈ sortedDedupBy le xs
    · rw [if_pos h]; exact ih
    · rw [if_neg h]; exact nodup_insortBy le x _ h ih

theorem lookupCol_mem {α β : Type} [DecidableEq α] :
    ∀ {l : List (α × β)} {c : α} {v : β}, lookupCol l c = some v → (c, v) ∈ l := by
  intro l
  induction l with
  | nil => intro c v h; simp [lookupCol] at h
  | cons p ps ih =>
    intro c v h
    by_cases hp : p.1 = c
    · simp only [lookupCol, hp, if_true, Option.some.injEq] at h
      exact List.mem_cons.mpr (Or.inl (by rw [← hp, ← h]))
    · simp only [lookupCol, hp, if_false] at h
      exact List.mem_cons_of_mem p (ih h)

theorem lookupCol_tabulate {α β : Type} [DecidableEq α] (g : α → β) (c : α) :
    ∀ (l : List α),
      lookupCol (l.map fun a => (a, g a)) c = if c ∈ l then some (g c) else none := by
  intro l
  induction l with
  | nil => simp [lookupCol]
  | cons x xs ih =>
    by_cases hx : x = c
    · subst hx
      simp [lookupCol, ih]
    · simp [lookupCol, hx, ih, Ne.symm hx]

theorem valAt_eq {α : Type} [DecidableEq α] {t : Table α} {c : α} {vs : List (Option ℚ)}
    {τ : ℚ} {i : Nat} (hc : t.colOf c = some vs) (hi : idxOf? τ t.times = some i) :
    t.valAt c τ = (vs[i]?).join := by
  simp [Table.valAt, hc, hi]

theorem valAt_of_no_col {α : Type} [DecidableEq α] {t : Table α} {c : α}
    (hc : t.colOf c = none) (τ : ℚ) : t.valAt c τ = none := by
  simp [Table.valAt, hc]

theorem pivot_ok_inv {rs : List RawRecord} {t : Table ℚ} (h : pivot rs = Except.ok t) :
    (rs.map fun r => (r.time, r.channel)).Nodup ∧
    t.times = sortedDedupQ (rs.map RawRecord.time) ∧
    t.cols = (sortedDedupQ (rs.map RawRecord.channel)).map fun c =>
      (c, (sortedDedupQ (rs.map RawRecord.time)).map fun τ => cellOf rs τ c) := by
  by_cases hnd : (rs.map fun r => (r.time, r.channel)).Nodup
  · refine ⟨hnd, ?_, ?_⟩ <;>
      · simp only [pivot, hnd, if_true, Except.ok.injEq] at h
        rw [← h]
  · simp [pivot, hnd] at h

theorem colNames_mapCols {α : Type} (f : List (Option ℚ) → List (Option ℚ)) (t : Table α) :
    (t.mapCols f).colNames = t.colNames := by
  simp [Table.mapCols, Table.colNames, List.map_map, Function.comp]

theorem times_mapCols {α : Type} (f : List (Option ℚ) → List (Option ℚ)) (t : Table α) :
    (t.mapCols f).times = t.times := rfl

theorem colOf_mapCols {α : Type} [DecidableEq α] (f : List (Option ℚ) → List (Option ℚ))
    (t : Table α) (c : α) : (t.mapCols f).colOf c = (t.colOf c).map f :=
  lookupCol_mapSnd f t.cols c

theorem colNames_applyFill {α : Type} (fm : Bool) (meth : String) (t : Table α) :
    (applyFill fm meth t).colNames = t.colNames := by
  unfold applyFill
  split_ifs <;> simp [colNames_mapCols]

theorem times_applyFill {α : Type} (fm : Bool) (meth : String) (t : Table α) :
    (applyFill fm meth t).times = t.times := by
  unfold applyFill
  split_ifs <;> rfl

theorem colNames_renameCols (t : Table ℚ) :
    (renameCols t).colNames = t.colNames.map chanName := by
  simp [renameCols, Table.colNames, List.map_map, Function.comp]

theorem times_renameCols (t : Table ℚ) : (renameCols t).times = t.times := rfl

theorem mem_setColList_self {α : Type} [DecidableEq α]
    (l : List (α × List (Option ℚ))) (c : α) (vs : List (Option ℚ)) :
    c ∈ (setColList l c vs).map Prod.fst := by
  have h := lookupCol_setColList_self l c vs
  exact lookupCol_isSome_iff.mp (by simp [h])

theorem readCsvAux_map_fst : ∀ (hs : List String) (j : Nat) (rows : List (List String)),
    (readCsvAux j hs rows).map Prod.fst = hs := by
  intro hs
  induction hs with
  | nil => intro j rows; simp [readCsvAux]
  | cons h hs ih => intro j rows; simp [readCsvAux, ih]

theorem applyFill_false {α : Type} (meth : String) (t : Table α) :
    applyFill false meth t = t := rfl

theorem cellOf_eq : ∀ {rs : List RawRecord},
    (rs.map fun r => (r.time, r.channel)).Nodup →
    ∀ {r : RawRecord}, r ∈ rs → cellOf rs r.time r.channel = r.value := by
  intro rs
  induction rs with
  | nil => intro _ r hr; simp at hr
  | cons s rs ih =>
    intro hnd r hr
    simp only [List.map_cons, List.nodup_cons] at hnd
    rcases hnd with ⟨hs, hnd'⟩
    rcases List.mem_cons.mp hr with heq | hr'
    · subst heq
      rw [cellOf, List.find?_cons_of_pos _ (by simp)]
      rfl
    · have hne : ¬ (s.time = r.time ∧ s.channel = r.channel) := by
        rintro ⟨h1, h2⟩
        exact hs (List.mem_map.mpr ⟨r, hr', by rw [h1, h2]⟩)
      rw [cellOf, List.find?_cons_of_neg _ (by simpa using hne)]
      exact ih hnd' hr'

theorem load_false_method_irrelevant (rs : List RawRecord) (m m' : String) :
    load_and_process_data rs false m = load_and_process_data rs false m' := by
  simp [load_and_process_data, applyFill_false]

/-!  ## Claim C4 -/

/-- Claim C4 (amended): the reshape does NOT resolve duplicate
(time, channel) pairs by last-write-wins — pandas `pivot` raises on any
duplicated pair; on duplicate-free inputs it produces a table in which
each (time, channel) pair maps to exactly the one value carried by its
unique record. -/
theorem claim4_pivot_duplicates (rs : List RawRecord) :
    (¬ (rs.map fun r => (r.time, r.channel)).Nodup → ∃ e, pivot rs = Except.error e) ∧
    ((rs.map fun r => (r.time, r.channel)).Nodup →
      ∃ t, pivot rs = Except.ok t ∧ t.times.Nodup ∧
        ∀ r ∈ rs, t.valAt r.channel r.time = r.value) := by
  constructor
  · intro h
    exact ⟨"Index contains duplicate entries, cannot reshape", by simp [pivot, h]⟩
  · intro h
    have hok : pivot rs = Except.ok
        ⟨sortedDedupQ (rs.map RawRecord.time),
         (sortedDedupQ (rs.map RawRecord.channel)).map fun c =>
           (c, (sortedDedupQ (rs.map RawRecord.time)).map fun τ => cellOf rs τ c)⟩ := by
      unfold pivot
      rw [if_pos h]
    refine ⟨_, hok, nodup_sortedDedupBy leQ _, ?_⟩
    intro r hr
    have hch : r.channel ∈ sortedDedupQ (rs.map RawRecord.channel) :=
      (mem_sortedDedupBy leQ _ _).mpr (List.mem_map.mpr ⟨r, hr, rfl⟩)
    have htime : r.time ∈ sortedDedupQ (rs.map RawRecord.time) :=
      (mem_sortedDedupBy leQ _ _).mpr (List.mem_map.mpr ⟨r, hr, rfl⟩)
    have hcol : (Table.mk (sortedDedupQ (rs.map RawRecord.time))
        ((sortedDedupQ (rs.map RawRecord.channel)).map fun c =>
          (c, (sortedDedupQ (rs.map RawRecord.time)).map fun τ => cellOf rs τ c))).colOf
          r.channel =
        some ((sortedDedupQ (rs.map RawRecord.time)).map fun τ => cellOf rs τ r.channel) := by
      show lookupCol _ _ = _
      rw [lookupCol_tabulate, if_pos hch]
    obtain ⟨i, hi⟩ : ∃ i, idxOf? r.time (sortedDedupQ (rs.map RawRecord.time)) = some i := by
      cases hidx : idxOf? r.time (sortedDedupQ (rs.map RawRecord.time)) with
      | none => exact absurd htime (idxOf?_eq_none_iff.mp hidx)
      | some i => exact ⟨i, rfl⟩
    rw [valAt_eq hcol hi, List.getElem?_map, idxOf?_getElem hi]
    simpa using cellOf_eq h hr

/-- Witness for C4: both branches at concrete inputs. -/
theorem claim4_pivot_duplicates_witness :
    (∃ e, pivot dupRecords = Except.error e) ∧
    (∃ t, pivot exRecords = Except.ok t ∧ t.times.Nodup ∧
      ∀ r ∈ exRecords, t.valAt r.channel r.time = r.value) :=
  ⟨(claim4_pivot_duplicates dupRecords).1 (by decide),
   (claim4_pivot_duplicates exRecords).2 (by decide)⟩

/-- Counterexample to C4 as stated: on a duplicated (time, channel) pair
the reshape raises and produces no table at all, so no last-write-wins
table exists. -/
theorem claim4_duplicate_no_table :
    pivot dupRecords = Except.error "Index contains duplicate entries, cannot reshape" ∧
    ∀ t : Table ℚ, pivot dupRecords ≠ Except.ok t := by
  constructor
  · rfl
  · intro t h
    rw [show pivot dupRecords =
        Except.error "Index contains duplicate entries, cannot reshape" from rfl] at h
    exact Except.noConfusion h

/-!  ## Claim C7 -/

/-- Claim C7: if `Channel_4` or `Channel_5` is absent from the reshaped
table, the derivation step fails (the model's `KeyError`), and the very
same error is what the run produces — condition evaluation is never
reached. -/
theorem claim7_missing_column_aborts (t : Table String)
    (h : t.colOf "Channel_4" = none ∨ t.colOf "Channel_5" = none) :
    ∃ e, derive t = Except.error e ∧
      (derive t).bind find_first_conditions = Except.error e := by
  cases h5 : t.colOf "Channel_5" with
  | none =>
    exact ⟨"KeyError: Channel_5", by simp [derive, h5], by simp [derive, h5, Except.bind]⟩
  | some v5 =>
    have h4 : t.colOf "Channel_4" = none := by
      rcases h with h4 | h5'
      · exact h4
      · rw [h5] at h5'
        exact Option.noConfusion h5'
    exact ⟨"KeyError: Channel_4", by simp [derive, h5, h4], by simp [derive, h5, h4, Except.bind]⟩

/-- Witness for C7 at a table lacking `Channel_4`. -/
theorem claim7_missing_column_aborts_witness :
    noCh4Table.colOf "Channel_4" = none ∧
    ∃ e, derive noCh4Table = Except.error e ∧
      (derive noCh4Table).bind find_first_conditions = Except.error e :=
  ⟨by decide, claim7_missing_column_aborts noCh4Table (Or.inl (by decide))⟩

/-!  ## Claim C6 -/

/-- Claim C6 (amended): any invocation supplying a NON-EMPTY fill-method
value outside {interpolate, ffill, bfill} fails with the invalid-method
error before any data is touched (the outcome is the same error for
every record list); an empty-string method value, being falsy in Python,
is silently treated as if no method had been supplied. -/
theorem claim6_invalid_method_fatal (args : Args) (m : String)
    (hm : args.method = some m) (hne : m ≠ "")
    (hout : ¬ (m = "interpolate" ∨ m = "ffill" ∨ m = "bfill")) :
    ∀ rs : List RawRecord,
      mainRun rs args =
        Except.error "Invalid fill method. Please choose from interpolate, ffill, bfill." := by
  intro rs
  have hres : resolveArgs args =
      Except.error "Invalid fill method. Please choose from interpolate, ffill, bfill." := by
    simp [resolveArgs, hm, hne, hout]
  simp [mainRun, hres, Except.bind]

/-- Witness for C6: `-m spline` fails identically on two different
record lists. -/
theorem claim6_invalid_method_fatal_witness :
    mainRun exRecords ⟨some "data.txt", false, some "spline"⟩ =
      Except.error "Invalid fill method. Please choose from interpolate, ffill, bfill." ∧
    mainRun [] ⟨some "data.txt", true, some "spline"⟩ =
      Except.error "Invalid fill method. Please choose from interpolate, ffill, bfill." :=
  ⟨claim6_invalid_method_fatal ⟨some "data.txt", false, some "spline"⟩ "spline" rfl
      (by decide) (by decide) exRecords,
   claim6_invalid_method_fatal ⟨some "data.txt", true, some "spline"⟩ "spline" rfl
      (by decide) (by decide) []⟩

/-- Counterexample to C6 as stated: the empty string is a fill-method
value outside {interpolate, ffill, bfill}, yet the run is not rejected —
the Loader is reached and the pipeline completes. -/
theorem claim6_empty_method_not_rejected :
    "" ∉ (["interpolate", "ffill", "bfill"] : List String) ∧
    ∃ r, mainRun exRecords ⟨some "data.txt", false, some ""⟩ = Except.ok r :=
  ⟨by decide, ⟨_, rfl⟩⟩

/-!  ## Claim C5 -/

/-- Claim C5 (amended): supplying a valid fill-method value does NOT
imply the fill switch: with `fill = false` the run behaves exactly as if
no method had been supplied — no gap filling is performed. -/
theorem claim5_method_without_flag (args : Args) (m : String)
    (hfill : args.fill = false) (hm : args.method = some m)
    (hv : m = "interpolate" ∨ m = "ffill" ∨ m = "bfill") :
    ∀ rs : List RawRecord,
      mainRun rs args = mainRun rs ⟨args.input, false, none⟩ := by
  intro rs
  have hne : m ≠ "" := by
    rcases hv with rfl | rfl | rfl <;> decide
  have h1 : resolveArgs args = Except.ok (false, m) := by
    simp [resolveArgs, hm, hne, hv, hfill]
  have h2 : resolveArgs ⟨args.input, false, none⟩ = Except.ok (false, "interpolate") := rfl
  simp only [mainRun, h1, h2, Except.bind]
  rw [load_false_method_irrelevant rs m "interpolate"]

/-- Witness for C5 at `-m bfill` without `-f`. -/
theorem claim5_method_without_flag_witness :
    mainRun holeRecords ⟨some "data.txt", false, some "bfill"⟩ =
      mainRun holeRecords ⟨some "data.txt", false, none⟩ :=
  claim5_method_without_flag ⟨some "data.txt", false, some "bfill"⟩ "bfill" rfl rfl
    (by decide) holeRecords

/-- Counterexample to C5 as stated: with `-m bfill` and no `-f` the gap
in `Channel_2` at time 0 stays missing, although bfill (with the switch)
would fill it with 5 — so selecting a method does not activate filling. -/
theorem claim5_gap_stays :
    (mainRun holeRecords ⟨some "data.txt", false, some "bfill"⟩).map
        (fun p => p.1.valAt "Channel_2" 0) = Except.ok none ∧
    (mainRun holeRecords ⟨some "data.txt", true, some "bfill"⟩).map
        (fun p => p.1.valAt "Channel_2" 0) = Except.ok (some 5) ∧
    mainRun holeRecords ⟨some "data.txt", false, some "bfill"⟩ =
      mainRun holeRecords ⟨some "data.txt", false, none⟩ :=
  ⟨rfl, rfl, rfl⟩

/-!  ## Claim C9 -/

/-- Claim C9 (amended): when the header lacks any of `time`, `channel`,
`value` the load fails (pandas raises at the pivot's column lookup) and
no reshaped table is produced; a non-numeric `time` or `value` field,
however, raises nothing — the field is carried as a string (see the
counterexample). -/
theorem claim9_missing_header_fails (inp : RawInput)
    (h : "time" ∉ inp.header ∨ "channel" ∉ inp.header ∨ "value" ∉ inp.header) :
    ∃ e, loadModel inp = Except.error e := by
  have hfst : (readCsv inp).map Prod.fst = inp.header :=
    readCsvAux_map_fst inp.header 0 inp.rows
  unfold loadModel pivotRaw
  rcases h with h | h | h
  · have h1 : lookupCol (readCsv inp) "time" = none :=
      lookupCol_eq_none_iff.mpr (hfst ▸ h)
    rw [h1]
    cases lookupCol (readCsv inp) "channel" <;>
      cases lookupCol (readCsv inp) "value" <;> exact ⟨_, rfl⟩
  · have h2 : lookupCol (readCsv inp) "channel" = none :=
      lookupCol_eq_none_iff.mpr (hfst ▸ h)
    rw [h2]
    cases lookupCol (readCsv inp) "time" <;>
      cases lookupCol (readCsv inp) "value" <;> exact ⟨_, rfl⟩
  · have h3 : lookupCol (readCsv inp) "value" = none :=
      lookupCol_eq_none_iff.mpr (hfst ▸ h)
    rw [h3]
    cases lookupCol (readCsv inp) "time" <;>
      cases lookupCol (readCsv inp) "channel" <;> exact ⟨_, rfl⟩

/-- Witness for C9 on a header misspelling `time`. -/
theorem claim9_missing_header_fails_witness :
    "time" ∉ badHeaderInput.header ∧ ∃ e, loadModel badHeaderInput = Except.error e :=
  ⟨by decide, claim9_missing_header_fails badHeaderInput (Or.inl (by decide))⟩

/-- Counterexample to C9 as stated: `abc` is not parseable as a number,
it appears as a `time` field, yet the load does not fail — a reshaped
table is produced. -/
theorem claim9_bad_time_still_loads :
    parseNum "abc" = none ∧
    (∃ row ∈ badTimeInput.rows, row.getD 0 "" = "abc") ∧
    ∃ t, loadModel badTimeInput = Except.ok t :=
  ⟨rfl, ⟨["abc", "4", "1"], by decide, rfl⟩, ⟨_, rfl⟩⟩

/-!  ## Claim C10 -/

/-- Claim C10: when channel identifier 7 occurs in the input, the pivot
gives the pre-derivation table a `Channel_7` column, and the derivation
step succeeds anyway, replacing that column with the
`Channel_5 - Channel_4` difference while leaving every other column and
the column-name list unchanged. -/
theorem claim10_channel7_overwritten (rs : List RawRecord) (t0 : Table ℚ)
    (fm : Bool) (meth : String) (hpiv : pivot rs = Except.ok t0)
    (r : RawRecord) (hr : r ∈ rs) (hch : pyInt r.channel = 7)
    (v4 v5 : List (Option ℚ))
    (h5 : (renameCols (applyFill fm meth t0)).colOf "Channel_5" = some v5)
    (h4 : (renameCols (applyFill fm meth t0)).colOf "Channel_4" = some v4) :
    "Channel_7" ∈ (renameCols (applyFill fm meth t0)).colNames ∧
    ∃ t', derive (renameCols (applyFill fm meth t0)) = Except.ok t' ∧
      t'.colOf "Channel_7" = some (zipSub v5 v4) ∧
      (∀ c, c ≠ "Channel_7" → t'.colOf c = (renameCols (applyFill fm meth t0)).colOf c) ∧
      t'.colNames = (renameCols (applyFill fm meth t0)).colNames := by
  have hcn0 : t0.colNames = sortedDedupQ (rs.map RawRecord.channel) := by
    rcases pivot_ok_inv hpiv with ⟨-, -, hcols⟩
    rw [Table.colNames, hcols, List.map_map]
    exact List.map_id _
  have hchmem : r.channel ∈ t0.colNames := by
    rw [hcn0]
    exact (mem_sortedDedupBy leQ _ _).mpr (List.mem_map.mpr ⟨r, hr, rfl⟩)
  have hname : chanName r.channel = "Channel_7" := by
    unfold chanName
    rw [hch]
    rfl
  have hmem7 : "Channel_7" ∈ (renameCols (applyFill fm meth t0)).colNames := by
    rw [colNames_renameCols, colNames_applyFill]
    exact List.mem_map.mpr ⟨r.channel, hchmem, hname⟩
  refine ⟨hmem7,
    (renameCols (applyFill fm meth t0)).setCol "Channel_7" (zipSub v5 v4),
    by simp [derive, h5, h4, Table.setCol], ?_, ?_, ?_⟩
  · exact lookupCol_setColList_self _ "Channel_7" (zipSub v5 v4)
  · intro c hc
    exact lookupCol_setColList_ne _ "Channel_7" c (zipSub v5 v4) hc
  · exact setColList_map_fst _ "Channel_7" (zipSub v5 v4) hmem7

/-- Witness for C10 on a pivot of records that include channel 7. -/
theorem claim10_channel7_overwritten_witness :
    ∃ t0 v4 v5, pivot withCh7Records = Except.ok t0 ∧
      (renameCols (applyFill false "interpolate" t0)).colOf "Channel_5" = some v5 ∧
      (renameCols (applyFill false "interpolate" t0)).colOf "Channel_4" = some v4 ∧
      ("Channel_7" ∈ (renameCols (applyFill false "interpolate" t0)).colNames ∧
       ∃ t', derive (renameCols (applyFill false "interpolate" t0)) = Except.ok t' ∧
         t'.colOf "Channel_7" = some (zipSub v5 v4) ∧
         (∀ c, c ≠ "Channel_7" →
            t'.colOf c = (renameCols (applyFill false "interpolate" t0)).colOf c) ∧
         t'.colNames = (renameCols (applyFill false "interpolate" t0)).colNames) :=
  ⟨_, _, _, rfl, rfl, rfl,
   claim10_channel7_overwritten withCh7Records _ false "interpolate" rfl
     ⟨0, 7, some 99⟩ (by decide) (by decide) _ _ rfl rfl⟩

/-!  ## Claim C2 -/

/-- Claim C2: the derivation step adds a `Channel_7` column obeying the
derived-column law: the entry at a time is missing exactly when
`Channel_4` or `Channel_5` is missing there, and otherwise equals
`Channel_5[t] - Channel_4[t]`. -/
theorem claim2_derived_column_law (t : Table String) (v4 v5 : List (Option ℚ))
    (h5 : t.colOf "Channel_5" = some v5) (h4 : t.colOf "Channel_4" = some v4)
    (hw : t.WF) (_hnd : t.times.Nodup) :
    ∃ t', derive t = Except.ok t' ∧ "Channel_7" ∈ t'.colNames ∧ t'.times = t.times ∧
      ∀ τ ∈ t.times,
        ((t'.valAt "Channel_7" τ = none ↔
          (t.valAt "Channel_4" τ = none ∨ t.valAt "Channel_5" τ = none)) ∧
        ∀ a b, t.valAt "Channel_5" τ = some a → t.valAt "Channel_4" τ = some b →
          t'.valAt "Channel_7" τ = some (a - b)) := by
  refine ⟨t.setCol "Channel_7" (zipSub v5 v4), by simp [derive, h5, h4, Table.setCol],
    mem_setColList_self t.cols "Channel_7" (zipSub v5 v4), rfl, ?_⟩
  intro τ hτ
  obtain ⟨i, hi⟩ : ∃ i, idxOf? τ t.times = some i := by
    cases hidx : idxOf? τ t.times with
    | none => exact absurd hτ (idxOf?_eq_none_iff.mp hidx)
    | some i => exact ⟨i, rfl⟩
  have hlen5 : v5.length = t.times.length := hw _ (lookupCol_mem h5)
  have hlen4 : v4.length = t.times.length := hw _ (lookupCol_mem h4)
  have hilt : i < t.times.length := idxOf?_lt_length hi
  have hi5 : i < v5.length := by omega
  have hi4 : i < v4.length := by omega
  obtain ⟨o5, ho5⟩ : ∃ o, v5[i]? = some o := ⟨v5[i], List.getElem?_eq_getElem hi5⟩
  obtain ⟨o4, ho4⟩ : ∃ o, v4[i]? = some o := ⟨v4[i], List.getElem?_eq_getElem hi4⟩
  have hz : (zipSub v5 v4)[i]? = some (subOpt o5 o4) := by
    unfold zipSub
    rw [List.getElem?_zipWith', ho5, ho4]
    rfl
  have hset : (t.setCol "Channel_7" (zipSub v5 v4)).colOf "Channel_7" = some (zipSub v5 v4) :=
    lookupCol_setColList_self t.cols "Channel_7" (zipSub v5 v4)
  have hv7 : (t.setCol "Channel_7" (zipSub v5 v4)).valAt "Channel_7" τ = subOpt o5 o4 := by
    rw [valAt_eq hset hi, hz]
    rfl
  have h5v : t.valAt "Channel_5" τ = o5 := by
    rw [valAt_eq h5 hi, ho5]
    rfl
  have h4v : t.valAt "Channel_4" τ = o4 := by
    rw [valAt_eq h4 hi, ho4]
    rfl
  constructor
  · rw [hv7, h4v, h5v]
    cases o5 <;> cases o4 <;> simp [subOpt]
  · intro a b ha hb
    rw [h5v] at ha
    rw [h4v] at hb
    rw [hv7, ha, hb]
    rfl

/-!  ## Claim C3 -/

theorem prevKnown_found {vs : List (Option ℚ)} {i j0 : Nat} {v0 : ℚ}
    (hj0 : j0 < i) (hv0 : vs[j0]? = some (some v0))
    (hbetw : ∀ k, j0 < k → k < i → vs[k]? = some none) :
    prevKnown vs i = some (j0, v0) := by
  unfold prevKnown
  rw [show i = (j0 + 1) + (i - j0 - 1) from by omega, List.range_add, List.filterMap_append]
  have h2 : ((List.range (i - j0 - 1)).map (j0 + 1 + ·)).filterMap
      (fun j => ((vs[j]?).join).map fun v => (j, v)) = [] := by
    rw [List.filterMap_eq_nil_iff]
    intro a ha
    rcases List.mem_map.mp ha with ⟨k, hk, rfl⟩
    have hkr : k < i - j0 - 1 := List.mem_range.mp hk
    rw [hbetw _ (by omega) (by omega)]
    rfl
  rw [h2, List.append_nil, List.range_succ, List.filterMap_append]
  have h1 : List.filterMap (fun j => ((vs[j]?).join).map fun v => (j, v)) [j0] =
      [(j0, v0)] := by
    rw [List.filterMap_cons, hv0]
    rfl
  rw [h1]
  exact List.getLast?_concat _

theorem prevKnown_none_of {vs : List (Option ℚ)} {i : Nat}
    (hall : ∀ k, k < i → vs[k]? = some none) : prevKnown vs i = none := by
  unfold prevKnown
  have h : (List.range i).filterMap (fun j => ((vs[j]?).join).map fun v => (j, v)) = [] := by
    rw [List.filterMap_eq_nil_iff]
    intro a ha
    rw [hall a (List.mem_range.mp ha)]
    rfl
  rw [h]
  rfl

theorem nextKnown_found {vs : List (Option ℚ)} {i j1 : Nat} {v1 : ℚ}
    (hij : i < j1) (hv1 : vs[j1]? = some (some v1))
    (hbetw : ∀ k, i < k → k < j1 → vs[k]? = some none) :
    nextKnown vs i = some (j1, v1) := by
  have hjlen : j1 < vs.length := (List.getElem?_eq_some.mp hv1).1
  unfold nextKnown
  rw [show vs.length - (i + 1) = (vs.length - j1) + (j1 - i - 1) from by omega,
    ← List.range'_append_1, List.filterMap_append]
  have h1 : (List.range' (i + 1) (j1 - i - 1)).filterMap
      (fun j => ((vs[j]?).join).map fun v => (j, v)) = [] := by
    rw [List.filterMap_eq_nil_iff]
    intro a ha
    have hmem := List.mem_range'_1.mp ha
    rw [hbetw a (by omega) (by omega)]
    rfl
  rw [h1, List.nil_append,
    show (i + 1) + (j1 - i - 1) = j1 from by omega,
    show vs.length - j1 = (vs.length - j1 - 1) + 1 from by omega,
    List.range'_succ, List.filterMap_cons, hv1]
  rfl

theorem nextKnown_none_of {vs : List (Option ℚ)} {i : Nat}
    (hall : ∀ k, i < k → k < vs.length → vs[k]? = some none) : nextKnown vs i = none := by
  unfold nextKnown
  have h : (List.range' (i + 1) (vs.length - (i + 1))).filterMap
      (fun j => ((vs[j]?).join).map fun v => (j, v)) = [] := by
    rw [List.filterMap_eq_nil_iff]
    intro a ha
    have hmem := List.mem_range'_1.mp ha
    rw [hall a (by omega) (by omega)]
    rfl
  rw [h]
  rfl

theorem interpAt_missing {vs : List (Option ℚ)} {i : Nat} (hmiss : vs[i]? = some none) :
    interpAt vs i =
      match prevKnown vs i, nextKnown vs i with
      | some (j0, v0), some (j1, v1) =>
          some (v0 + ((i : ℚ) - (j0 : ℚ)) * (v1 - v0) / ((j1 : ℚ) - (j0 : ℚ)))
      | some (_, v0), none => some v0
      | none, _ => none := by
  unfold interpAt
  rw [hmiss]
  rfl

theorem interpolateList_getElem? {vs : List (Option ℚ)} {i : Nat} (h : i < vs.length) :
    (interpolateList vs)[i]? = some (interpAt vs i) := by
  unfold interpolateList
  rw [List.getElem?_map, List.getElem?_range h]
  rfl

/-- Claim C3 (amended): under the linear-interpolate policy a missing
value with known neighbours on both sides is filled by linear
interpolation over ROW POSITION (pandas' `'linear'` treats the values as
equally spaced and ignores the time index); missing values before the
first known value stay missing; missing values after the last known
value do NOT stay missing — they take the last known value. -/
theorem claim3_interpolate_positional (t : Table ℚ) (c : ℚ) (vs : List (Option ℚ))
    (hc : t.colOf c = some vs) (hnd : t.times.Nodup)
    (τ : ℚ) (i : Nat) (hti : t.times[i]? = some τ) (hmiss : vs[i]? = some none) :
    (∀ j0 v0 j1 v1, j0 < i → i < j1 →
      vs[j0]? = some (some v0) → vs[j1]? = some (some v1) →
      (∀ k, j0 < k → k < j1 → vs[k]? = some none) →
      (applyFill true "interpolate" t).valAt c τ =
        some (v0 + ((i : ℚ) - (j0 : ℚ)) * (v1 - v0) / ((j1 : ℚ) - (j0 : ℚ)))) ∧
    ((∀ k, k < i → vs[k]? = some none) →
      (applyFill true "interpolate" t).valAt c τ = none) ∧
    (∀ j0 v0, j0 < i → vs[j0]? = some (some v0) →
      (∀ k, j0 < k → k < vs.length → vs[k]? = some none) →
      (applyFill true "interpolate" t).valAt c τ = some v0) := by
  have hilen : i < vs.length := (List.getElem?_eq_some.mp hmiss).1
  have hmain : (applyFill true "interpolate" t).valAt c τ = interpAt vs i := by
    have hcol : (applyFill true "interpolate" t).colOf c = some (interpolateList vs) := by
      show (t.mapCols interpolateList).colOf c = _
      rw [colOf_mapCols, hc]
      rfl
    have hidx : idxOf? τ (applyFill true "interpolate" t).times = some i :=
      idxOf?_of_getElem hnd hti
    rw [valAt_eq hcol hidx, interpolateList_getElem? hilen]
    rfl
  refine ⟨?_, ?_, ?_⟩
  · intro j0 v0 j1 v1 hj0 hj1 hv0 hv1 hbetw
    rw [hmain, interpAt_missing hmiss,
      prevKnown_found hj0 hv0 (fun k hk1 hk2 => hbetw k hk1 (by omega)),
      nextKnown_found hj1 hv1 (fun k hk1 hk2 => hbetw k (by omega) hk2)]
  · intro hall
    rw [hmain, interpAt_missing hmiss, prevKnown_none_of hall]
  · intro j0 v0 hj0 hv0 hall
    rw [hmain, interpAt_missing hmiss,
      prevKnown_found hj0 hv0 (fun k hk1 hk2 => hall k hk1 (by omega)),
      nextKnown_none_of fun k hk1 hk2 => hall k (by omega) hk2]

/-- Witness for C3 on the pivot of `gapRecords`: position-linear fill of
the interior gap (value 5 at time 1) and forward propagation into the
trailing gap (value 10 at time 20). -/
theorem claim3_interpolate_positional_witness :
    interpTable.colOf 2 = some [some 0, none, some 10, none] ∧
    interpTable.times.Nodup ∧
    ((∀ (j0 : Nat) (v0 : ℚ) (j1 : Nat) (v1 : ℚ), j0 < 1 → 1 < j1 →
      ([some 0, none, some 10, none] : List (Option ℚ))[j0]? = some (some v0) →
      ([some 0, none, some 10, none] : List (Option ℚ))[j1]? = some (some v1) →
      (∀ k : Nat, j0 < k → k < j1 →
        ([some 0, none, some 10, none] : List (Option ℚ))[k]? = some none) →
      (applyFill true "interpolate" interpTable).valAt 2 1 =
        some (v0 + (((1 : Nat) : ℚ) - (j0 : ℚ)) * (v1 - v0) / ((j1 : ℚ) - (j0 : ℚ)))) ∧
    ((∀ k : Nat, k < 1 →
        ([some 0, none, some 10, none] : List (Option ℚ))[k]? = some none) →
      (applyFill true "interpolate" interpTable).valAt 2 1 = none) ∧
    (∀ (j0 : Nat) (v0 : ℚ), j0 < 1 →
      ([some 0, none, some 10, none] : List (Option ℚ))[j0]? = some (some v0) →
      (∀ k : Nat, j0 < k → k < ([some 0, none, some 10, none] : List (Option ℚ)).length →
        ([some 0, none, some 10, none] : List (Option ℚ))[k]? = some none) →
      (applyFill true "interpolate" interpTable).valAt 2 1 = some v0)) :=
  ⟨rfl, by decide,
   claim3_interpolate_positional interpTable 2 [some 0, none, some 10, none]
     rfl (by decide) 1 1 rfl rfl⟩

/-- Counterexample to C3 as stated: on the pivot of `gapRecords` (times
0, 1, 10, 20 with knowns 0 and 10 at times 0 and 10), the interpolated
value at time 1 is 5, not the by-time interpolation 1; and the missing
value at time 20, after the last known value, is filled with 10 instead
of remaining missing. -/
theorem claim3_not_by_time :
    pivot gapRecords = Except.ok interpTable ∧
    (applyFill true "interpolate" interpTable).valAt 2 1 = some 5 ∧
    specTimeInterp 0 0 10 10 1 = 1 ∧ (5 : ℚ) ≠ 1 ∧
    (applyFill true "interpolate" interpTable).valAt 2 20 = some 10 :=
  ⟨rfl, rfl, by decide, by decide, rfl⟩

/-!  ## Claim C8 -/

theorem natDigitsAux_fuel : ∀ (n f1 f2 : Nat), n < f1 → n < f2 →
    natDigitsAux f1 n = natDigitsAux f2 n := by
  intro n
  induction n using Nat.strong_induction_on with
  | _ n ih =>
    intro f1 f2 h1 h2
    cases f1 with
    | zero => omega
    | succ g1 =>
      cases f2 with
      | zero => omega
      | succ g2 =>
        simp only [natDigitsAux]
        by_cases h10 : n < 10
        · simp [h10]
        · simp only [h10, if_false]
          have hdiv : n / 10 < n := Nat.div_lt_self (by omega) (by omega)
          rw [ih (n / 10) hdiv g1 g2 (by omega) (by omega)]

theorem natDigits_unfold (n : Nat) :
    natDigits n =
      if n < 10 then [digitChar n] else natDigits (n / 10) ++ [digitChar (n % 10)] := by
  have h1 : natDigits n =
      if n < 10 then [digitChar n] else natDigitsAux n (n / 10) ++ [digitChar (n % 10)] := rfl
  rw [h1]
  by_cases h10 : n < 10
  · rw [if_pos h10, if_pos h10]
  · rw [if_neg h10, if_neg h10]
    have hdiv : n / 10 < n := Nat.div_lt_self (by omega) (by omega)
    rw [natDigitsAux_fuel (n / 10) n (n / 10 + 1) (by omega) (by omega)]
    rfl

theorem digitChar_toNat {d : Nat} (h : d < 10) : (digitChar d).toNat = 48 + d := by
  interval_cases d <;> rfl

theorem digitsVal_concat (xs : List Char) (c : Char) :
    digitsVal (xs ++ [c]) = 10 * digitsVal xs + (c.toNat - 48) := by
  unfold digitsVal
  rw [List.foldl_append]
  rfl

theorem digitsVal_natDigits : ∀ n : Nat, digitsVal (natDigits n) = n := by
  intro n
  induction n using Nat.strong_induction_on with
  | _ n ih =>
    rw [natDigits_unfold]
    by_cases h10 : n < 10
    · simp only [h10, if_true]
      show digitsVal ([] ++ [digitChar n]) = n
      rw [digitsVal_concat, digitChar_toNat h10]
      simp [digitsVal]
    · simp only [h10, if_false]
      have hdiv : n / 10 < n := Nat.div_lt_self (by omega) (by omega)
      rw [digitsVal_concat, ih (n / 10) hdiv, digitChar_toNat (Nat.mod_lt n (by omega))]
      omega

theorem natDigits_inj {a b : Nat} (h : natDigits a = natDigits b) : a = b := by
  have := congrArg digitsVal h
  rwa [digitsVal_natDigits, digitsVal_natDigits] at this

theorem dash_not_mem_natDigits : ∀ n : Nat, '-' ∉ natDigits n := by
  intro n
  induction n using Nat.strong_induction_on with
  | _ n ih =>
    rw [natDigits_unfold]
    by_cases h10 : n < 10
    · simp only [h10, if_true, List.mem_singleton]
      intro hdc
      have := congrArg Char.toNat hdc
      rw [digitChar_toNat h10] at this
      simp at this
      omega
    · simp only [h10, if_false, List.mem_append, List.mem_singleton]
      rintro (hmem | hdc)
      · exact ih (n / 10) (Nat.div_lt_self (by omega) (by omega)) hmem
      · have := congrArg Char.toNat hdc
        rw [digitChar_toNat (Nat.mod_lt n (by omega))] at this
        simp at this
        omega

theorem intRepr_inj : ∀ {a b : Int}, intRepr a = intRepr b → a = b := by
  intro a b h
  match a, b with
  | Int.ofNat m, Int.ofNat m' =>
    unfold intRepr at h
    injection h with hdata
    rw [natDigits_inj hdata]
  | Int.ofNat m, Int.negSucc m' =>
    unfold intRepr at h
    injection h with hdata
    exact absurd (hdata ▸ List.mem_cons_self '-' (natDigits (m' + 1)))
      (dash_not_mem_natDigits m)
  | Int.negSucc m, Int.ofNat m' =>
    unfold intRepr at h
    injection h with hdata
    exact absurd (hdata ▸ List.mem_cons_self '-' (natDigits (m + 1)))
      (dash_not_mem_natDigits m')
  | Int.negSucc m, Int.negSucc m' =>
    unfold intRepr at h
    injection h with hdata
    injection hdata with _ htail
    have hmm : m + 1 = m' + 1 := natDigits_inj htail
    have : m = m' := by omega
    rw [this]

theorem string_append_right_inj {s t1 t2 : String} (h : s ++ t1 = s ++ t2) : t1 = t2 := by
  cases s with
  | mk a =>
    cases t1 with
    | mk b =>
      cases t2 with
      | mk c =>
        have h' : String.mk (a ++ b) = String.mk (a ++ c) := h
        injection h' with hd
        exact congrArg String.mk (List.append_cancel_left hd)

theorem pyInt_intCast (n : Int) : pyInt (n : ℚ) = n := by
  unfold pyInt
  by_cases h : (0 : ℚ) ≤ (n : ℚ)
  · rw [if_pos h, Int.floor_intCast]
  · rw [if_neg h, Int.ceil_intCast]

theorem pyInt_of_den_one {q : ℚ} (hq : q.den = 1) : pyInt q = q.num := by
  have h : pyInt q = pyInt ((q.num : ℚ)) := by
    rw [Rat.coe_int_num_of_den_eq_one hq]
  rw [h, pyInt_intCast]

theorem chanName_int_inj {a b : ℚ} (ha : a.den = 1) (hb : b.den = 1)
    (h : chanName a = chanName b) : a = b := by
  unfold chanName at h
  have hrepr := string_append_right_inj h
  have hnum : pyInt a = pyInt b := intRepr_inj hrepr
  rw [pyInt_of_den_one ha, pyInt_of_den_one hb] at hnum
  rw [← Rat.coe_int_num_of_den_eq_one ha, ← Rat.coe_int_num_of_den_eq_one hb, hnum]

/-- Claim C8: the pre-derivation columns are exactly the distinct
channel identifiers of the input under the `Channel_<int(id)>` scheme,
and — the identifiers being integers — the scheme is injective over the
identifiers present, so the column names are pairwise distinct. -/
theorem claim8_column_naming (rs : List RawRecord) (t0 : Table ℚ)
    (fm : Bool) (meth : String) (hpiv : pivot rs = Except.ok t0)
    (hint : ∀ r ∈ rs, (r.channel).den = 1) :
    (∀ s, s ∈ (renameCols (applyFill fm meth t0)).colNames ↔
       ∃ r ∈ rs, s = chanName r.channel) ∧
    (renameCols (applyFill fm meth t0)).colNames.Nodup ∧
    ∀ r1 ∈ rs, ∀ r2 ∈ rs,
      chanName r1.channel = chanName r2.channel → r1.channel = r2.channel := by
  have hcn0 : t0.colNames = sortedDedupQ (rs.map RawRecord.channel) := by
    rcases pivot_ok_inv hpiv with ⟨-, -, hcols⟩
    rw [Table.colNames, hcols, List.map_map]
    exact List.map_id _
  have hcn : (renameCols (applyFill fm meth t0)).colNames =
      (sortedDedupQ (rs.map RawRecord.channel)).map chanName := by
    rw [colNames_renameCols, colNames_applyFill, hcn0]
  refine ⟨?_, ?_, ?_⟩
  · intro s
    rw [hcn]
    constructor
    · intro hs
      rcases List.mem_map.mp hs with ⟨c, hc, rfl⟩
      rcases List.mem_map.mp ((mem_sortedDedupBy leQ _ _).mp hc) with ⟨r, hr, rfl⟩
      exact ⟨r, hr, rfl⟩
    · rintro ⟨r, hr, rfl⟩
      exact List.mem_map.mpr
        ⟨r.channel, (mem_sortedDedupBy leQ _ _).mpr (List.mem_map.mpr ⟨r, hr, rfl⟩), rfl⟩
  · rw [hcn]
    refine List.Nodup.map_on ?_ (nodup_sortedDedupBy leQ _)
    intro x hx y hy hxy
    rcases List.mem_map.mp ((mem_sortedDedupBy leQ _ _).mp hx) with ⟨rx, hrx, hrxc⟩
    rcases List.mem_map.mp ((mem_sortedDedupBy leQ _ _).mp hy) with ⟨ry, hry, hryc⟩
    exact chanName_int_inj (hrxc ▸ hint rx hrx) (hryc ▸ hint ry hry) hxy
  · intro r1 hr1 r2 hr2 h
    exact chanName_int_inj (hint r1 hr1) (hint r2 hr2) h

/-- Witness for C8 on the records of the spec's end-to-end example. -/
theorem claim8_column_naming_witness :
    (∀ r ∈ exRecords, (r.channel).den = 1) ∧
    (∃ t0, pivot exRecords = Except.ok t0 ∧
      ((∀ s, s ∈ (renameCols (applyFill false "interpolate" t0)).colNames ↔
          ∃ r ∈ exRecords, s = chanName r.channel) ∧
       (renameCols (applyFill false "interpolate" t0)).colNames.Nodup ∧
       ∀ r1 ∈ exRecords, ∀ r2 ∈ exRecords,
         chanName r1.channel = chanName r2.channel → r1.channel = r2.channel)) :=
  ⟨by decide,
   ⟨_, rfl, claim8_column_naming exRecords _ false "interpolate" rfl (by decide)⟩⟩

/-!  ## Claim C1 -/

theorem presentLt_mem {t : Table String} {c : String} {θ τ : ℚ}
    (h : presentLt t c θ τ) : τ ∈ t.times := by
  rcases h with ⟨q, hval, -⟩
  unfold Table.valAt at hval
  cases hcol : t.colOf c with
  | none =>
    rw [hcol] at hval
    exact Option.noConfusion hval
  | some vs =>
    rw [hcol] at hval
    cases hidx : idxOf? τ t.times with
    | none =>
      rw [hidx] at hval
      exact Option.noConfusion hval
    | some i =>
      exact mem_of_getElem?_some (idxOf?_getElem hidx)

theorem mask_iff_presentLt {t : Table String} {c : String} {vs : List (Option ℚ)} {θ : ℚ}
    (hc : t.colOf c = some vs) (hnd : t.times.Nodup) (τ : ℚ) :
    presentLt t c θ τ ↔
      ∃ i : Nat, t.times[i]? = some τ ∧ (seriesLt vs θ)[i]? = some true := by
  constructor
  · rintro ⟨q, hval, hq⟩
    unfold Table.valAt at hval
    rw [hc] at hval
    cases hidx : idxOf? τ t.times with
    | none =>
      rw [hidx] at hval
      exact Option.noConfusion hval
    | some i =>
      rw [hidx] at hval
      have hval' : (vs[i]?).join = some q := hval
      cases hvi : vs[i]? with
      | none =>
        rw [hvi] at hval'
        exact Option.noConfusion hval'
      | some o =>
        rw [hvi] at hval'
        have ho : o = some q := hval'
        refine ⟨i, idxOf?_getElem hidx, ?_⟩
        show (vs.map (ltNaN θ))[i]? = some true
        rw [List.getElem?_map, hvi, ho]
        simp [ltNaN, hq]
  · rintro ⟨i, hti, hmi⟩
    have hmap : (vs.map (ltNaN θ))[i]? = some true := hmi
    rw [List.getElem?_map] at hmap
    cases hvi : vs[i]? with
    | none =>
      rw [hvi] at hmap
      exact Option.noConfusion hmap
    | some o =>
      rw [hvi] at hmap
      simp only [Option.map_some', Option.some.injEq] at hmap
      cases o with
      | none => simp [ltNaN] at hmap
      | some q =>
        simp only [ltNaN, decide_eq_true_eq] at hmap
        have hidx : idxOf? τ t.times = some i := idxOf?_of_getElem hnd hti
        refine ⟨q, ?_, hmap⟩
        rw [valAt_eq hc hidx, hvi]
        rfl

theorem mask_and_iff {t : Table String} {c c' : String} {vs vs' : List (Option ℚ)}
    {θ θ' : ℚ} (hc : t.colOf c = some vs) (hc' : t.colOf c' = some vs')
    (hnd : t.times.Nodup) (τ : ℚ) :
    (presentLt t c θ τ ∧ presentLt t c' θ' τ) ↔
      ∃ i : Nat, t.times[i]? = some τ ∧
        (List.zipWith (· && ·) (seriesLt vs θ) (seriesLt vs' θ'))[i]? = some true := by
  constructor
  · rintro ⟨hp, hp'⟩
    rcases (mask_iff_presentLt hc hnd τ).mp hp with ⟨i, hti, hmi⟩
    rcases (mask_iff_presentLt hc' hnd τ).mp hp' with ⟨i', hti', hmi'⟩
    have hieq : i = i' := by
      have e1 : idxOf? τ t.times = some i := idxOf?_of_getElem hnd hti
      have e2 : idxOf? τ t.times = some i' := idxOf?_of_getElem hnd hti'
      rw [e1] at e2
      exact Option.some.inj e2
    subst hieq
    refine ⟨i, hti, ?_⟩
    rw [List.getElem?_zipWith', hmi, hmi']
    rfl
  · rintro ⟨i, hti, hmi⟩
    rw [List.getElem?_zipWith'] at hmi
    cases hm1 : (seriesLt vs θ)[i]? with
    | none =>
      rw [hm1] at hmi
      exact Option.noConfusion hmi
    | some b1 =>
      rw [hm1] at hmi
      cases hm2 : (seriesLt vs' θ')[i]? with
      | none =>
        rw [hm2] at hmi
        exact Option.noConfusion hmi
      | some b2 =>
        rw [hm2] at hmi
        have hb : b1 = true ∧ b2 = true := by simpa using hmi
        rcases hb with ⟨hb1, hb2⟩
        subst hb1
        subst hb2
        exact ⟨(mask_iff_presentLt hc hnd τ).mpr ⟨i, hti, hm1⟩,
               (mask_iff_presentLt hc' hnd τ).mpr ⟨i, hti, hm2⟩⟩

theorem isFirstSat_of_mask {t : Table String} (P : ℚ → Prop) (mask : List Bool)
    (hmask : ∀ τ, P τ ↔ ∃ i : Nat, t.times[i]? = some τ ∧ mask[i]? = some true)
    (hP : ∀ τ, P τ → τ ∈ t.times) :
    isFirstSat t P (listMin? (selectTimes t.times mask)) := by
  constructor
  · rw [listMin?_eq_none_iff, List.eq_nil_iff_forall_not_mem]
    constructor
    · intro hne
      rintro ⟨τ, hτmem, hPτ⟩
      exact hne τ (mem_selectTimes.mpr ((hmask τ).mp hPτ))
    · intro hnex τ hτsel
      have hPτ : P τ := (hmask τ).mpr (mem_selectTimes.mp hτsel)
      exact hnex ⟨τ, hP τ hPτ, hPτ⟩
  · intro m hm
    obtain ⟨hmem, hle⟩ := listMin?_spec.mp hm
    have hPm : P m := (hmask m).mpr (mem_selectTimes.mp hmem)
    exact ⟨hP m hPm, hPm,
      fun τ hτ hPτ => hle τ (mem_selectTimes.mpr ((hmask τ).mp hPτ))⟩

/-- Claim C1: given the post-derivation table, the evaluator returns,
for each of `Channel_2[t] < -0.5`, `Channel_7[t] < 0`, and their
conjunction, the minimum time at which the predicate holds with every
referenced value present (rows with a missing referenced value never
qualify), and the NaN sentinel (`none`) exactly when no time
qualifies. -/
theorem claim1_first_conditions (t : Table String) (v2 v7 : List (Option ℚ))
    (h2 : t.colOf "Channel_2" = some v2) (h7 : t.colOf "Channel_7" = some v7)
    (hnd : t.times.Nodup) :
    ∃ r1 r2 rb, find_first_conditions t = Except.ok (r1, r2, rb) ∧
      isFirstSat t (presentLt t "Channel_2" (-0.5)) r1 ∧
      isFirstSat t (presentLt t "Channel_7" 0) r2 ∧
      isFirstSat t
        (fun τ => presentLt t "Channel_2" (-0.5) τ ∧ presentLt t "Channel_7" 0 τ) rb := by
  refine ⟨listMin? (selectTimes t.times (seriesLt v2 (-0.5))),
    listMin? (selectTimes t.times (seriesLt v7 0)),
    listMin? (selectTimes t.times (List.zipWith (· && ·) (seriesLt v2 (-0.5)) (seriesLt v7 0))),
    by simp [find_first_conditions, h2, h7], ?_, ?_, ?_⟩
  · exact isFirstSat_of_mask _ _ (mask_iff_presentLt h2 hnd) (fun τ => presentLt_mem)
  · exact isFirstSat_of_mask _ _ (mask_iff_presentLt h7 hnd) (fun τ => presentLt_mem)
  · exact isFirstSat_of_mask _ _ (mask_and_iff h2 h7 hnd)
      (fun τ hτ => presentLt_mem hτ.1)

/-- Witness for C1: on `condTable` the three first times are 2, 1, 3. -/
theorem claim1_first_conditions_witness :
    condTable.times.Nodup ∧
    find_first_conditions condTable = Except.ok (some 2, some 1, some 3) ∧
    (∃ r1 r2 rb, find_first_conditions condTable = Except.ok (r1, r2, rb) ∧
      isFirstSat condTable (presentLt condTable "Channel_2" (-0.5)) r1 ∧
      isFirstSat condTable (presentLt condTable "Channel_7" 0) r2 ∧
      isFirstSat condTable
        (fun τ => presentLt condTable "Channel_2" (-0.5) τ ∧
          presentLt condTable "Channel_7" 0 τ) rb) :=
  ⟨by decide, by rfl,
   claim1_first_conditions condTable
     [some 0, none, some (-0.7), some (-0.9)] [some 1, some (-1), none, some (-2)]
     rfl rfl (by decide)⟩

/-- Witness for C2 on a two-column table with one missing `Channel_4`
entry. -/
theorem claim2_derived_column_law_witness :
    twoColTable.WF ∧ twoColTable.times.Nodup ∧
    (∃ t', derive twoColTable = Except.ok t' ∧ "Channel_7" ∈ t'.colNames ∧
      t'.times = twoColTable.times ∧
      ∀ τ ∈ twoColTable.times,
        ((t'.valAt "Channel_7" τ = none ↔
          (twoColTable.valAt "Channel_4" τ = none ∨ twoColTable.valAt "Channel_5" τ = none)) ∧
        ∀ a b, twoColTable.valAt "Channel_5" τ = some a →
          twoColTable.valAt "Channel_4" τ = some b →
          t'.valAt "Channel_7" τ = some (a - b))) :=
  ⟨by decide, by decide,
   claim2_derived_column_law twoColTable [some 1, none] [some 0.5, some 3] rfl rfl
     (by decide) (by decide)⟩

end MGP
